import Mathlib

/-!
Shallow embedding of the LaTeX-log diagnostics extractor of `mcp_tex.py`
(`validate_tex`).  Log texts are `List Char`.  The four warning regexes, the
error chunker (`re.split`), the `l.N` search, deduplication and report
assembly are translated directly from the source; Python exceptions are
modelled by `Option`.
-/

namespace McpTex

/-- Python `str.strip` whitespace set (ASCII). -/
def isPySpace (c : Char) : Bool :=
  c = ' ' || c = '\t' || c = '\n' || c = '\r' || c = '\x0b' || c = '\x0c'

/-- Python `str.strip()`: drop leading and trailing whitespace. -/
def pyStrip (s : List Char) : List Char :=
  ((s.dropWhile isPySpace).reverse.dropWhile isPySpace).reverse

/-- Decimal value of a digit string (the value `int()` returns on a `\d+` capture). -/
def decVal (s : List Char) : Nat :=
  s.foldl (fun a c => 10 * a + (c.toNat - '0'.toNat)) 0

/-- Python `int()` applied to a regex capture: succeeds exactly on nonempty
all-digit strings (the only shapes `\d+` can capture); `none` models the
`ValueError` raised otherwise. -/
def parseNat? (s : List Char) : Option Nat :=
  if s ≠ [] ∧ s.all Char.isDigit then some (decVal s) else none

/-- Decimal rendering of a natural number, as Python `len(...)` interpolation. -/
def natStr (n : Nat) : List Char :=
  (Nat.repr n).toList

/-- Where in the source document a diagnostic applies: the Python dicts carry
no key, a `"line": n` key, or a `"lines": [a, b]` key. -/
inductive LineRef where
  | noRef : LineRef
  | single (n : Nat) : LineRef
  | range (a b : Nat) : LineRef
deriving DecidableEq, Repr

/-- A warning dict `{"message": ..}`, `{"message": .., "line": ..}` or
`{"message": .., "lines": [..]}`; dict equality coincides with equality of
`message` and `lines`. -/
structure Warning where
  message : List Char
  lines : LineRef
deriving DecidableEq, Repr

/-- An error dict `{"message": ..}` with optional `"line"` key. -/
structure ErrRecord where
  message : List Char
  line : Option Nat
deriving DecidableEq, Repr

/-- The dictionary returned by `validate_tex` on the success path
(the `log_file` field, pure bookkeeping, is modelled at the `validateTex`
wrapper level). -/
structure Report where
  warnings : List Warning
  errors : List ErrRecord
  summary : List Char
  success : Bool
deriving DecidableEq, Repr

/-! ### Regex building blocks -/

/-- Match a literal: consume `pat` from the front of `s`. -/
def lit (pat s : List Char) : Option (List Char) :=
  if pat.isPrefixOf s then some (s.drop pat.length) else none

/-- Greedy `\d+`: at least one digit, then the maximal digit run. -/
def grabDigits (s : List Char) : Option (List Char × List Char) :=
  match s with
  | [] => none
  | c :: cs =>
    if c.isDigit then some (c :: cs.takeWhile Char.isDigit, cs.dropWhile Char.isDigit)
    else none

/-- Greedy backtracking for a `[^x]*` class: `run` is the maximal run the
class can take and `rest` the text after it; try the continuation `k` on
every split, longest first, as the regex engine does. -/
def greedyBT (run rest : List Char) (k : List Char → List Char → Option α) : Option α :=
  ((List.range (run.length + 1)).reverse).findSome?
    (fun j => k (run.take j) (run.drop j ++ rest))

/-! ### The four warning patterns

Pattern 1: `((?:Underfull|Overfull) \\[^(]*) in paragraph at lines (\d+)--(\d+)`
Pattern 2: `LaTeX Warning: ([^.]*) on (input )?line (\d+)`
Pattern 3: `Package ([^\s]+) Warning: ([^.]*) on (input )?line (\d+)`
Pattern 4: `(?:LaTeX|Package [^\s]+) Warning: ([^.]*)`

Each matcher attempts its pattern at the head of `s` and returns the captures
together with the text remaining after the match. -/

/-- Tail of pattern 1 after the `Underfull`/`Overfull` alternative (`head` is
the alternative that matched). -/
def matchP1core (head s : List Char) :
    Option ((List Char × List Char × List Char) × List Char) := do
  let s1 ← lit [' ', '\\'] s
  greedyBT (s1.takeWhile (· ≠ '(')) (s1.dropWhile (· ≠ '(')) fun g1tail s2 => do
    let s3 ← lit " in paragraph at lines ".toList s2
    let (d1, s4) ← grabDigits s3
    let s5 ← lit ['-', '-'] s4
    let (d2, s6) ← grabDigits s5
    some ((head ++ [' ', '\\'] ++ g1tail, d1, d2), s6)

/-- Pattern 1 at the head of `s`: captures `(group1, digits1, digits2)`. -/
def matchP1 (s : List Char) :
    Option ((List Char × List Char × List Char) × List Char) :=
  match lit "Underfull".toList s with
  | some s1 => matchP1core "Underfull".toList s1
  | none =>
    match lit "Overfull".toList s with
    | some s1 => matchP1core "Overfull".toList s1
    | none => none

/-- The ` on (input )?line (\d+)` tail shared by patterns 2 and 3: the
greedy optional group tries `input ` first; the two expansions differ at
their fourth character, so at most one literal can apply at a position. -/
def matchOnLine (s : List Char) : Option (List Char × List Char) :=
  match lit " on input line ".toList s with
  | some s1 => grabDigits s1
  | none =>
    match lit " on line ".toList s with
    | some s1 => grabDigits s1
    | none => none

/-- Pattern 2 at the head of `s`: captures `(group1, line digits)`. -/
def matchP2 (s : List Char) : Option ((List Char × List Char) × List Char) := do
  let s1 ← lit "LaTeX Warning: ".toList s
  greedyBT (s1.takeWhile (· ≠ '.')) (s1.dropWhile (· ≠ '.')) fun g1 s2 => do
    let (d, s3) ← matchOnLine s2
    some ((g1, d), s3)

/-- Pattern 3 at the head of `s`: captures `(package, group2, line digits)`. -/
def matchP3 (s : List Char) :
    Option ((List Char × List Char × List Char) × List Char) := do
  let s1 ← lit "Package ".toList s
  greedyBT (s1.takeWhile (fun c => ¬ isPySpace c)) (s1.dropWhile (fun c => ¬ isPySpace c))
    fun g1 s2 =>
      if g1.isEmpty then none
      else do
        let s3 ← lit " Warning: ".toList s2
        greedyBT (s3.takeWhile (· ≠ '.')) (s3.dropWhile (· ≠ '.')) fun g2 s4 => do
          let (d, s5) ← matchOnLine s4
          some ((g1, g2, d), s5)

/-- Pattern 4 at the head of `s`: captures the whole match (`group(0)`). -/
def matchP4 (s : List Char) : Option (List Char × List Char) :=
  match lit "LaTeX Warning: ".toList s with
  | some s1 =>
    some ("LaTeX Warning: ".toList ++ s1.takeWhile (· ≠ '.'), s1.dropWhile (· ≠ '.'))
  | none =>
    match lit "Package ".toList s with
    | some s1 =>
      greedyBT (s1.takeWhile (fun c => ¬ isPySpace c)) (s1.dropWhile (fun c => ¬ isPySpace c))
        fun g1 s2 =>
          if g1.isEmpty then none
          else do
            let s3 ← lit " Warning: ".toList s2
            some ("Package ".toList ++ g1 ++ " Warning: ".toList ++ s3.takeWhile (· ≠ '.'),
                  s3.dropWhile (· ≠ '.'))
    | none => none

/-- `re.finditer`: scan left to right, restarting after each (nonempty) match.
`fuel` bounds the number of scan steps; it is spent once per consumed
character, so `s.length + 1` suffices. -/
def finditerAux (m : List Char → Option (α × List Char)) : Nat → List Char → List α
  | 0, _ => []
  | fuel + 1, s =>
    match m s with
    | some ar => ar.1 :: finditerAux m fuel ar.2
    | none =>
      match s with
      | [] => []
      | _ :: tail => finditerAux m fuel tail

/-- All matches of `m` over `s`, in position order. -/
def finditer (m : List Char → Option (α × List Char)) (s : List Char) : List α :=
  finditerAux m (s.length + 1) s

/-! ### Extraction lambdas (the `extract_func` of each pattern) -/

/-- `lambda m: {"message": m.group(1), "lines": [int(m.group(2)), int(m.group(3))]}` -/
def extract1 (caps : List Char × List Char × List Char) : Option Warning := do
  let n1 ← parseNat? caps.2.1
  let n2 ← parseNat? caps.2.2
  some ⟨caps.1, .range n1 n2⟩

/-- `lambda m: {"message": f"LaTeX Warning: {m.group(1)}", "line": int(m.group(3))}` -/
def extract2 (caps : List Char × List Char) : Option Warning := do
  let n ← parseNat? caps.2
  some ⟨"LaTeX Warning: ".toList ++ caps.1, .single n⟩

/-- `lambda m: {"message": f"Package {m.group(1)} Warning: {m.group(2)}", "line": int(m.group(4))}` -/
def extract3 (caps : List Char × List Char × List Char) : Option Warning := do
  let n ← parseNat? caps.2.2
  some ⟨"Package ".toList ++ caps.1 ++ " Warning: ".toList ++ caps.2.1, .single n⟩

/-- `lambda m: {"message": m.group(0)}` -/
def extract4 (caps : List Char) : Option Warning :=
  some ⟨caps, .noRef⟩

/-- Candidate warnings of one rule: every match, passed through the rule's
extraction lambda (`none` = the lambda raised). -/
def rule1 (t : List Char) : List (Option Warning) := (finditer matchP1 t).map extract1

def rule2 (t : List Char) : List (Option Warning) := (finditer matchP2 t).map extract2

def rule3 (t : List Char) : List (Option Warning) := (finditer matchP3 t).map extract3

def rule4 (t : List Char) : List (Option Warning) := (finditer matchP4 t).map extract4

/-- The full candidate sequence: rules in priority order, matches in position
order within each rule — exactly the iteration order of the nested `for`. -/
def warnCandidates (t : List Char) : List (Option Warning) :=
  rule1 t ++ rule2 t ++ rule3 t ++ rule4 t

/-- `if warning not in warnings: warnings.append(warning)`. -/
def insertIfNew (ws : List Warning) (w : Warning) : List Warning :=
  if w ∈ ws then ws else ws ++ [w]

/-- One iteration of the warning loop: evaluate the extraction lambda, then
append unless already present. -/
def dedupStep (acc : List Warning) (ow : Option Warning) : Option (List Warning) :=
  ow.map (insertIfNew acc)

/-- The final `warnings` list (`none` = some iteration raised). -/
def warningsOf (t : List Char) : Option (List Warning) :=
  (warnCandidates t).foldlM dedupStep []

/-! ### Error chunker -/

/-- Recursion core of `errSplit`; `fuel` is spent once per separator match,
each of which consumes at least the `'!'` character, so `t.length + 1`
steps always complete the split. -/
def errSplitAux : Nat → List Char → List (List Char)
  | 0, _ => []
  | fuel + 1, t =>
    match t.dropWhile (· ≠ '!') with
    | [] => [t.takeWhile (· ≠ '!')]
    | c :: cs =>
      t.takeWhile (· ≠ '!') :: (c :: cs.takeWhile (· ≠ '!'))
        :: errSplitAux fuel (cs.dropWhile (· ≠ '!'))

/-- `re.split(r'(!(?:[^!]|$)*)', output)`: each separator match is an `'!'`
followed by every character up to (excluding) the next `'!'` or the end; with
the capturing group the separators appear in the result, interleaved with the
(possibly empty) text between matches. -/
def errSplit (t : List Char) : List (List Char) :=
  errSplitAux (t.length + 1) t

/-- Python `chunk.startswith('!')`. -/
def startsWithBang (c : List Char) : Bool :=
  match c with
  | [] => false
  | x :: _ => x = '!'

/-- The chunks the loop keeps: `if chunk.startswith('!')`. -/
def retainedChunks (t : List Char) : List (List Char) :=
  (errSplit t).filter startsWithBang

/-- Recursion core of `pySplit`; `fuel` is spent once per separator found,
so `t.length + 1` steps always complete the split. -/
def pySplitAux (sep : Char) : Nat → List Char → List (List Char)
  | 0, _ => []
  | fuel + 1, t =>
    match t.dropWhile (· ≠ sep) with
    | [] => [t.takeWhile (· ≠ sep)]
    | _ :: cs => t.takeWhile (· ≠ sep) :: pySplitAux sep fuel cs

/-- Python `str.split(sep)` (always at least one part). -/
def pySplit (sep : Char) (t : List Char) : List (List Char) :=
  pySplitAux sep (t.length + 1) t

/-- One attempt of `re.search(r'l\.(\d+)', ..)` at the head of `s`: literal
`l.` then at least one digit; the capture is the maximal digit run. -/
def lMatchAt (s : List Char) : Option (List Char) :=
  match s with
  | a :: b :: d :: rest =>
    if a = 'l' then
      if b = '.' then
        if d.isDigit then some (d :: rest.takeWhile Char.isDigit) else none
      else none
    else none
  | _ => none

/-- `re.search(r'l\.(\d+)', chunk)`: try every position left to right and
return the first capture. -/
def findLNum : List Char → Option (List Char)
  | [] => none
  | a :: as =>
    match lMatchAt (a :: as) with
    | some ds => some ds
    | none => findLNum as

/-- Build one error record from a retained chunk: `message` is
`chunk.split('\n')[0].strip()` (`none` models the `IndexError` on an empty
split), and the `"line"` key is set when the `l.N` search succeeds. -/
def mkError (chunk : List Char) : Option ErrRecord := do
  let firstLine ← (pySplit '\n' chunk).head?
  match findLNum chunk with
  | none => some ⟨pyStrip firstLine, none⟩
  | some ds => do
    let n ← parseNat? ds
    some ⟨pyStrip firstLine, some n⟩

/-- `Option`-valued `mapM`, written by structural recursion. -/
def mapMOpt (f : α → Option β) : List α → Option (List β)
  | [] => some []
  | a :: as => do
    let b ← f a
    let bs ← mapMOpt f as
    some (b :: bs)

/-- The final `errors` list: every retained chunk, in order, no dedup. -/
def errorsOf (t : List Char) : Option (List ErrRecord) :=
  mapMOpt mkError (retainedChunks t)

/-! ### Report assembly and the validate wrapper -/

/-- The dictionary literal returned at the end of `validate_tex`. -/
def mkReport (ws : List Warning) (es : List ErrRecord) : Report :=
  { warnings := ws
    errors := es
    summary := natStr ws.length ++ " warnings, ".toList ++ natStr es.length
                 ++ " errors found".toList
    success := es.length == 0 }

/-- The whole parsing phase on one log text (`none` = a Python exception,
which the outer `except` would turn into an error dict). -/
def parseLog (t : List Char) : Option Report := do
  let ws ← warningsOf t
  let es ← errorsOf t
  some (mkReport ws es)

/-- Total wrapper around `parseLog` (the default is never reached). -/
def reportOf (t : List Char) : Report :=
  (parseLog t).getD (mkReport [] [])

/-- The filesystem/process facts `validate_tex` consults, abstracted:
whether the resolved document exists, its resolved path, whether the
`.log` file exists after the engine run, and the two possible log sources. -/
structure Env where
  fileExists : Bool
  resolvedPath : List Char
  logExists : Bool
  logText : List Char
  stdoutText : List Char

/-- The value `validate_tex` returns: an error dict or a report. -/
inductive VResult where
  | err (msg : List Char) : VResult
  | ok (r : Report) : VResult
deriving DecidableEq

/-- `output`: the log file when present, else the captured stdout. -/
def acquireOutput (e : Env) : List Char :=
  if e.logExists then e.logText else e.stdoutText

/-- `validate_tex` including its precondition checks; the first component
records whether the `pdflatex` subprocess was invoked. -/
def validateTex (e : Env) (texPath : List Char) : Bool × VResult :=
  if e.fileExists = false then
    (false, .err ("File ".toList ++ texPath ++ " does not exist".toList))
  else if (".tex".toList.isSuffixOf e.resolvedPath) = false then
    (false, .err ("File ".toList ++ texPath ++ " is not a LaTeX file".toList))
  else
    (true,
      match parseLog (acquireOutput e) with
      | some r => .ok r
      | none => .err "Failed to validate LaTeX file: ".toList)

/-! ### Spec-side definitions

These follow the wording of the specification (not the source) and are
compared with the source-derived definitions in the theorems below. -/

/-- Spec §4.3: keep a candidate only if its `(message, lines)` pair has not
been seen; `seen` is consulted through membership only. -/
def dedupFirstAux (seen : List Warning) : List Warning → List Warning
  | [] => []
  | w :: ws =>
    if w ∈ seen then dedupFirstAux seen ws
    else w :: dedupFirstAux (w :: seen) ws

/-- Spec §4.3 deduplication of the whole candidate sequence. -/
def dedupFirst (ws : List Warning) : List Warning :=
  dedupFirstAux [] ws

/-- The candidate warning sequence itself (all rule matches, rule-priority
order then match order), `none` when some extraction raises. -/
def candidatesOf (t : List Char) : Option (List Warning) :=
  mapMOpt id (warnCandidates t)

/-- Spec §4.2: a source-line marker `l.` followed by a digit occurs at
position `i` of the chunk. -/
def markerAt (c : List Char) (i : Nat) : Bool :=
  match c.drop i with
  | a :: b :: d :: _ => a == 'l' && b == '.' && d.isDigit
  | _ => false

/-- The digit run following the marker at position `i`. -/
def digitsAt (c : List Char) (i : Nat) : List Char :=
  (c.drop (i + 2)).takeWhile Char.isDigit

/-- The first position of the chunk carrying an `l.N` marker, if any. -/
def firstMarkerIdx (c : List Char) : Option Nat :=
  (List.range c.length).find? (markerAt c)

/-- Spec §4.2 line extraction: `Single(N)` parsed at the first marker
occurrence, otherwise no line. -/
def findLNumSpec (c : List Char) : Option Nat :=
  (firstMarkerIdx c).map (fun i => decVal (digitsAt c i))

/-- No line of the text begins with the error marker (the hypothesis of the
spec's zero-error property). -/
def noLineStartsWithBang (t : List Char) : Bool :=
  (pySplit '\n' t).all (fun l => !(startsWithBang l))

/-! ### Helper lemmas: `mapMOpt` and `parseNat?` -/

theorem parseNat?_eq_decVal {s : List Char} (h1 : s ≠ []) (h2 : s.all Char.isDigit = true) :
    parseNat? s = some (decVal s) := by
  simp [parseNat?, h1, h2]

theorem mapMOpt_nil {f : α → Option β} : mapMOpt f [] = some [] := rfl

theorem mapMOpt_cons {f : α → Option β} {a : α} {as : List α} :
    mapMOpt f (a :: as) =
      (f a).bind fun b => (mapMOpt f as).bind fun bs => some (b :: bs) := rfl

theorem mapMOpt_eq_map {f : α → Option β} {g : α → β} :
    ∀ (l : List α), (∀ a ∈ l, f a = some (g a)) → mapMOpt f l = some (l.map g) := by
  intro l
  induction l with
  | nil => intro _; rfl
  | cons a as ih =>
    intro h
    have ha := h a (List.mem_cons_self a as)
    have has := ih (fun x hx => h x (List.mem_cons_of_mem a hx))
    simp [mapMOpt_cons, ha, has]

theorem mapMOpt_length {f : α → Option β} :
    ∀ (l : List α) (bs : List β), mapMOpt f l = some bs → bs.length = l.length := by
  intro l
  induction l with
  | nil =>
    intro bs h
    rw [mapMOpt_nil] at h
    injection h with h
    subst h
    rfl
  | cons a as ih =>
    intro bs h
    rw [mapMOpt_cons, Option.bind_eq_some] at h
    obtain ⟨b, _, h⟩ := h
    rw [Option.bind_eq_some] at h
    obtain ⟨bs', hbs', h⟩ := h
    injection h with h
    rw [← h]
    simp [ih bs' hbs']

theorem mapMOpt_get {f : α → Option β} :
    ∀ (l : List α) (bs : List β), mapMOpt f l = some bs →
      ∀ (i : Nat) (h1 : i < l.length) (h2 : i < bs.length),
        f (l.get ⟨i, h1⟩) = some (bs.get ⟨i, h2⟩) := by
  intro l
  induction l with
  | nil =>
    intro bs h i h1 h2
    exact absurd h1 (by simp)
  | cons a as ih =>
    intro bs h i h1 h2
    rw [mapMOpt_cons, Option.bind_eq_some] at h
    obtain ⟨b, hb, h⟩ := h
    rw [Option.bind_eq_some] at h
    obtain ⟨bs', hbs', h⟩ := h
    injection h with h
    subst h
    cases i with
    | zero => simpa using hb
    | succ j =>
      simpa using ih bs' hbs' j (by simpa using h1) (by simpa using h2)

theorem mapMOpt_isSome {f : α → Option β} :
    ∀ (l : List α), (∀ a ∈ l, (f a).isSome) → ∃ bs, mapMOpt f l = some bs := by
  intro l
  induction l with
  | nil => exact fun _ => ⟨[], rfl⟩
  | cons a as ih =>
    intro h
    obtain ⟨b, hb⟩ := Option.isSome_iff_exists.mp (h a (by simp))
    obtain ⟨bs, hbs⟩ := ih (fun x hx => h x (by simp [hx]))
    exact ⟨b :: bs, by simp [mapMOpt_cons, hb, hbs]⟩

/-! ### Helper lemmas: the split functions -/

theorem pySplit_head (sep : Char) (t : List Char) :
    (pySplit sep t).head? = some (t.takeWhile (· ≠ sep)) := by
  simp only [pySplit, pySplitAux]
  split <;> rfl

theorem startsWithBang_takeWhile (t : List Char) :
    startsWithBang (t.takeWhile (· ≠ '!')) = false := by
  cases t with
  | nil => rfl
  | cons a as =>
    by_cases ha : a = '!'
    · simp [List.takeWhile_cons, ha, startsWithBang]
    · simp [List.takeWhile_cons, ha, startsWithBang]

theorem count_takeWhile_bang (t : List Char) : (t.takeWhile (· ≠ '!')).count '!' = 0 := by
  rw [List.count_eq_zero]
  intro hmem
  have := List.mem_takeWhile_imp hmem
  simp at this

theorem errSplitAux_count :
    ∀ (fuel : Nat) (t : List Char), t.length < fuel →
      ((errSplitAux fuel t).filter startsWithBang).length = t.count '!' := by
  intro fuel
  induction fuel with
  | zero => intro t ht; omega
  | succ n ih =>
    intro t ht
    cases h : t.dropWhile (· ≠ '!') with
    | nil =>
      have hteq : t.takeWhile (· ≠ '!') = t := by
        conv_rhs => rw [← List.takeWhile_append_dropWhile (· ≠ '!') t]
        rw [h, List.append_nil]
      have h0 : t.count '!' = 0 := by
        rw [← hteq]
        exact count_takeWhile_bang t
      simp only [errSplitAux, h, h0, List.filter_cons, startsWithBang_takeWhile,
        List.filter_nil]
      simp
    | cons c cs =>
      have hc : c = '!' := by
        have hh := List.head?_dropWhile_not (fun x => x ≠ '!') t
        rw [h] at hh
        simpa using hh
      subst hc
      have hlen1 : (t.dropWhile (· ≠ '!')).length ≤ t.length :=
        (List.dropWhile_sublist _).length_le
      have hlen2 : (cs.dropWhile (· ≠ '!')).length ≤ cs.length :=
        (List.dropWhile_sublist _).length_le
      rw [h] at hlen1
      simp only [List.length_cons] at hlen1
      have hih := ih (cs.dropWhile (· ≠ '!')) (by omega)
      have hswb : startsWithBang ('!' :: cs.takeWhile (· ≠ '!')) = true := by
        simp [startsWithBang]
      have hfil : (List.filter startsWithBang (errSplitAux (n + 1) t)).length
          = (List.filter startsWithBang (errSplitAux n (cs.dropWhile (· ≠ '!')))).length
            + 1 := by
        simp only [errSplitAux, h, List.filter_cons, startsWithBang_takeWhile, hswb]
        simp
      have hcount : t.count '!' = (cs.dropWhile (· ≠ '!')).count '!' + 1 := by
        have hcount2 : cs.count '!' = (cs.takeWhile (· ≠ '!')).count '!'
            + (cs.dropWhile (· ≠ '!')).count '!' := by
          conv_lhs => rw [← List.takeWhile_append_dropWhile (· ≠ '!') cs]
          rw [List.count_append]
        conv_lhs => rw [← List.takeWhile_append_dropWhile (· ≠ '!') t]
        rw [List.count_append, count_takeWhile_bang, h, List.count_cons_self, hcount2,
          count_takeWhile_bang]
        omega
      rw [hfil, hih, hcount]

theorem retainedChunks_length (t : List Char) :
    (retainedChunks t).length = t.count '!' := by
  rw [retainedChunks, errSplit]
  exact errSplitAux_count (t.length + 1) t (Nat.lt_succ_self _)

/-! ### Helper lemmas: the `l.N` search -/

theorem lMatchAt_eq (s : List Char) :
    lMatchAt s = if markerAt s 0 then some (digitsAt s 0) else none := by
  rcases s with _ | ⟨a, _ | ⟨b, _ | ⟨d, rest⟩⟩⟩
  · rfl
  · rfl
  · rfl
  · simp only [lMatchAt, markerAt, digitsAt, List.drop]
    by_cases ha : a = 'l' <;> by_cases hb : b = '.' <;> by_cases hd : d.isDigit = true <;>
      simp [ha, hb, hd, List.takeWhile_cons]

theorem markerAt_cons (a : Char) (as : List Char) (i : Nat) :
    markerAt (a :: as) (i + 1) = markerAt as i := by
  simp [markerAt, List.drop_succ_cons]

theorem digitsAt_cons (a : Char) (as : List Char) (i : Nat) :
    digitsAt (a :: as) (i + 1) = digitsAt as i := by
  have h3 : i + 1 + 2 = (i + 2) + 1 := by omega
  simp [digitsAt, h3, List.drop_succ_cons]

theorem findLNum_eq_spec : ∀ (c : List Char),
    findLNum c = (firstMarkerIdx c).map (digitsAt c) := by
  intro c
  induction c with
  | nil => rfl
  | cons a as ih =>
    rw [findLNum, lMatchAt_eq]
    have hrange : List.range ((a :: as).length) = 0 :: (List.range as.length).map Nat.succ := by
      rw [List.length_cons, List.range_succ_eq_map]
    by_cases hm : markerAt (a :: as) 0
    · rw [if_pos hm]
      rw [firstMarkerIdx, hrange, List.find?_cons, hm]
      rfl
    · rw [if_neg hm]
      have hm' : markerAt (a :: as) 0 = false := by
        cases hmm : markerAt (a :: as) 0
        · rfl
        · exact absurd hmm hm
      rw [firstMarkerIdx, hrange, List.find?_cons, hm']
      rw [List.find?_map]
      have hcomp : (markerAt (a :: as)) ∘ Nat.succ = markerAt as := by
        funext i
        exact markerAt_cons a as i
      rw [hcomp]
      rw [Option.map_map]
      have hcomp2 : (digitsAt (a :: as)) ∘ Nat.succ = digitsAt as := by
        funext i
        exact digitsAt_cons a as i
      rw [hcomp2, ih, firstMarkerIdx]

theorem lMatchAt_digits {s ds : List Char} (h : lMatchAt s = some ds) :
    ds ≠ [] ∧ ds.all Char.isDigit = true := by
  rcases s with _ | ⟨a, _ | ⟨b, _ | ⟨d, rest⟩⟩⟩
  · simp [lMatchAt] at h
  · simp [lMatchAt] at h
  · simp [lMatchAt] at h
  · simp only [lMatchAt] at h
    split_ifs at h with ha hb hd
    injection h with h
    subst h
    refine ⟨by simp, ?_⟩
    simp only [List.all_cons, hd, Bool.true_and, List.all_eq_true]
    intro x hx
    exact List.mem_takeWhile_imp hx

theorem findLNum_digits : ∀ (c ds : List Char), findLNum c = some ds →
    ds ≠ [] ∧ ds.all Char.isDigit = true := by
  intro c
  induction c with
  | nil => intro ds h; simp [findLNum] at h
  | cons a as ih =>
    intro ds h
    rw [findLNum] at h
    cases hm : lMatchAt (a :: as) with
    | some ds' =>
      rw [hm] at h
      injection h with h
      subst h
      exact lMatchAt_digits hm
    | none =>
      rw [hm] at h
      exact ih ds h

/-- The error-record constructor, characterised: it never fails, its message
is the trimmed first line, and its line reference is the spec-side first
`l.N` marker value. -/
theorem mkError_eq (c : List Char) :
    mkError c = some ⟨pyStrip (c.takeWhile (· ≠ '\n')), findLNumSpec c⟩ := by
  unfold mkError
  rw [pySplit_head]
  cases hf : findLNum c with
  | none =>
    have hspec : findLNumSpec c = none := by
      have h1 := findLNum_eq_spec c
      rw [hf] at h1
      rw [findLNumSpec]
      cases hi : firstMarkerIdx c
      · rfl
      · rw [hi] at h1; simp at h1
    simp [hspec]
  | some ds =>
    obtain ⟨hne, hall⟩ := findLNum_digits c ds hf
    have hp : parseNat? ds = some (decVal ds) := parseNat?_eq_decVal hne hall
    have hspec : findLNumSpec c = some (decVal ds) := by
      have h1 := findLNum_eq_spec c
      rw [hf] at h1
      rw [findLNumSpec]
      cases hi : firstMarkerIdx c with
      | none => rw [hi] at h1; simp at h1
      | some i =>
        rw [hi] at h1
        simp only [Option.map_some'] at h1 ⊢
        injection h1 with h1
        rw [h1]
    simp [hp, hspec]

/-! ### Helper lemmas: deduplication -/

theorem dedupFirstAux_congr : ∀ (cs s1 s2 : List Warning),
    (∀ x, x ∈ s1 ↔ x ∈ s2) → dedupFirstAux s1 cs = dedupFirstAux s2 cs := by
  intro cs
  induction cs with
  | nil => intro s1 s2 _; rfl
  | cons w ws ih =>
    intro s1 s2 h
    simp only [dedupFirstAux]
    by_cases hw : w ∈ s1
    · rw [if_pos hw, if_pos ((h w).mp hw)]
      exact ih s1 s2 h
    · rw [if_neg hw, if_neg (fun hc => hw ((h w).mpr hc))]
      rw [ih (w :: s1) (w :: s2) (by intro x; simp [h x])]

theorem foldl_insertIfNew_eq : ∀ (cs acc : List Warning),
    cs.foldl insertIfNew acc = acc ++ dedupFirstAux acc cs := by
  intro cs
  induction cs with
  | nil => intro acc; simp [dedupFirstAux]
  | cons w ws ih =>
    intro acc
    simp only [List.foldl_cons, dedupFirstAux]
    by_cases hw : w ∈ acc
    · rw [if_pos hw]
      have hid : insertIfNew acc w = acc := by simp [insertIfNew, hw]
      rw [hid, ih]
    · rw [if_neg hw]
      have happ : insertIfNew acc w = acc ++ [w] := by simp [insertIfNew, hw]
      rw [happ, ih]
      rw [dedupFirstAux_congr ws (acc ++ [w]) (w :: acc) (by intro x; simp [or_comm])]
      simp

theorem dedupFirstAux_nodup : ∀ (cs seen : List Warning),
    (dedupFirstAux seen cs).Nodup ∧ ∀ x ∈ dedupFirstAux seen cs, x ∉ seen := by
  intro cs
  induction cs with
  | nil => intro seen; simp [dedupFirstAux]
  | cons w ws ih =>
    intro seen
    simp only [dedupFirstAux]
    by_cases hw : w ∈ seen
    · rw [if_pos hw]
      exact ih seen
    · rw [if_neg hw]
      obtain ⟨h1, h2⟩ := ih (w :: seen)
      constructor
      · refine List.nodup_cons.mpr ⟨fun hmem => ?_, h1⟩
        exact (h2 w hmem) (List.mem_cons_self w seen)
      · intro x hx hxs
        rcases List.mem_cons.mp hx with rfl | hx'
        · exact hw hxs
        · exact h2 x hx' (List.mem_cons_of_mem w hxs)

theorem dedupFirst_nodup (cs : List Warning) : (dedupFirst cs).Nodup :=
  (dedupFirstAux_nodup cs []).1

theorem foldlM_dedupStep_eq : ∀ (l : List (Option Warning)) (acc : List Warning),
    l.foldlM dedupStep acc = (mapMOpt id l).map (fun ws => ws.foldl insertIfNew acc) := by
  intro l
  induction l with
  | nil => intro acc; simp [mapMOpt_nil, List.foldlM_nil]
  | cons ow l ih =>
    intro acc
    rw [List.foldlM_cons]
    cases ow with
    | none => simp [dedupStep, mapMOpt_cons]
    | some w =>
      have hstep : dedupStep acc (some w) = some (insertIfNew acc w) := rfl
      rw [hstep]
      cases hm : mapMOpt id l with
      | none =>
        simp only [mapMOpt_cons, id, hm]
        simp [ih, hm]
      | some ws =>
        simp only [mapMOpt_cons, id, hm]
        simp [ih, hm, List.foldl_cons]

/-- The warning loop computes exactly the spec-side first-occurrence
deduplication of the candidate sequence. -/
theorem warningsOf_eq_dedup (t : List Char) :
    warningsOf t = (candidatesOf t).map dedupFirst := by
  rw [warningsOf, candidatesOf, foldlM_dedupStep_eq]
  cases h : mapMOpt id (warnCandidates t) with
  | none => rfl
  | some cs =>
    simp only [Option.map_some']
    rw [foldl_insertIfNew_eq]
    simp [dedupFirst]

/-! ### Helper lemmas: the extraction lambdas never raise -/

theorem greedyBT_some {run rest : List Char} {k : List Char → List Char → Option α}
    {a : α} (h : greedyBT run rest k = some a) : ∃ g s, k g s = some a := by
  rw [greedyBT] at h
  obtain ⟨j, _, hj⟩ := List.exists_of_findSome?_eq_some h
  exact ⟨run.take j, run.drop j ++ rest, hj⟩

theorem grabDigits_sound : ∀ {s ds r : List Char}, grabDigits s = some (ds, r) →
    ds ≠ [] ∧ ds.all Char.isDigit = true := by
  intro s ds r h
  cases s with
  | nil => simp [grabDigits] at h
  | cons c cs =>
    simp only [grabDigits] at h
    by_cases hc : c.isDigit = true
    · rw [if_pos hc] at h
      injection h with h
      have h1 : c :: cs.takeWhile Char.isDigit = ds := congrArg Prod.fst h
      subst h1
      refine ⟨by simp, ?_⟩
      simp only [List.all_cons, hc, Bool.true_and, List.all_eq_true]
      intro x hx
      exact List.mem_takeWhile_imp hx
    · rw [if_neg hc] at h
      exact absurd h (by simp)

theorem matchOnLine_sound {s d r : List Char} (h : matchOnLine s = some (d, r)) :
    d ≠ [] ∧ d.all Char.isDigit = true := by
  rw [matchOnLine] at h
  cases h1 : lit " on input line ".toList s with
  | some s1 =>
    rw [h1] at h
    exact grabDigits_sound h
  | none =>
    rw [h1] at h
    cases h2 : lit " on line ".toList s with
    | some s1 =>
      rw [h2] at h
      exact grabDigits_sound h
    | none =>
      rw [h2] at h
      exact absurd h (by simp)

theorem matchP1core_sound {head s : List Char}
    {caps : List Char × List Char × List Char} {r : List Char}
    (h : matchP1core head s = some (caps, r)) : (extract1 caps).isSome = true := by
  rw [matchP1core] at h
  cases hl : lit [' ', '\\'] s with
  | none =>
    rw [hl] at h
    simp at h
  | some s1 =>
    rw [hl] at h
    simp only [Option.bind_eq_bind, Option.some_bind] at h
    obtain ⟨g, s2, hk⟩ := greedyBT_some h
    simp only [Option.bind_eq_bind, Option.bind_eq_some] at hk
    obtain ⟨s3, _, ⟨d1, s4⟩, hd1, s5, _, ⟨d2, s6⟩, hd2, hk⟩ := hk
    injection hk with hk
    have hcaps : (head ++ [' ', '\\'] ++ g, d1, d2) = caps := congrArg Prod.fst hk
    subst hcaps
    obtain ⟨h1, h2⟩ := grabDigits_sound hd1
    obtain ⟨h3, h4⟩ := grabDigits_sound hd2
    simp [extract1, parseNat?_eq_decVal h1 h2, parseNat?_eq_decVal h3 h4]

theorem matchP1_sound {s : List Char} {caps : List Char × List Char × List Char}
    {r : List Char} (h : matchP1 s = some (caps, r)) : (extract1 caps).isSome = true := by
  rw [matchP1] at h
  cases h1 : lit "Underfull".toList s with
  | some s1 =>
    rw [h1] at h
    exact matchP1core_sound h
  | none =>
    rw [h1] at h
    cases h2 : lit "Overfull".toList s with
    | some s1 =>
      rw [h2] at h
      exact matchP1core_sound h
    | none =>
      rw [h2] at h
      exact absurd h (by simp)

theorem matchP2_sound {s : List Char} {caps : List Char × List Char} {r : List Char}
    (h : matchP2 s = some (caps, r)) : (extract2 caps).isSome = true := by
  rw [matchP2] at h
  cases hl : lit "LaTeX Warning: ".toList s with
  | none =>
    rw [hl] at h
    simp at h
  | some s1 =>
    rw [hl] at h
    simp only [Option.bind_eq_bind, Option.some_bind] at h
    obtain ⟨g, s2, hk⟩ := greedyBT_some h
    simp only [Option.bind_eq_bind, Option.bind_eq_some] at hk
    obtain ⟨⟨d, s3⟩, hd, hk⟩ := hk
    injection hk with hk
    have hcaps : (g, d) = caps := congrArg Prod.fst hk
    subst hcaps
    obtain ⟨h1, h2⟩ := matchOnLine_sound hd
    simp [extract2, parseNat?_eq_decVal h1 h2]

theorem matchP3_sound {s : List Char} {caps : List Char × List Char × List Char}
    {r : List Char} (h : matchP3 s = some (caps, r)) : (extract3 caps).isSome = true := by
  rw [matchP3] at h
  cases hl : lit "Package ".toList s with
  | none =>
    rw [hl] at h
    simp at h
  | some s1 =>
    rw [hl] at h
    simp only [Option.bind_eq_bind, Option.some_bind] at h
    obtain ⟨g1, s2, hk⟩ := greedyBT_some h
    by_cases hg : g1.isEmpty
    · rw [if_pos hg] at hk
      exact absurd hk (by simp)
    · rw [if_neg hg] at hk
      cases hw : lit " Warning: ".toList s2 with
      | none =>
        rw [hw] at hk
        simp at hk
      | some s3 =>
        rw [hw] at hk
        simp only [Option.bind_eq_bind, Option.some_bind] at hk
        obtain ⟨g2, s4, hk2⟩ := greedyBT_some hk
        simp only [Option.bind_eq_bind, Option.bind_eq_some] at hk2
        obtain ⟨⟨d, s5⟩, hd, hk2⟩ := hk2
        injection hk2 with hk2
        have hcaps : (g1, g2, d) = caps := congrArg Prod.fst hk2
        subst hcaps
        obtain ⟨h1, h2⟩ := matchOnLine_sound hd
        simp [extract3, parseNat?_eq_decVal h1 h2]

theorem finditerAux_succ (m : List Char → Option (α × List Char)) (fuel : Nat)
    (s : List Char) :
    finditerAux m (fuel + 1) s =
      match m s with
      | some ar => ar.1 :: finditerAux m fuel ar.2
      | none =>
        match s with
        | [] => []
        | _ :: tail => finditerAux m fuel tail := rfl

theorem mem_finditerAux {m : List Char → Option (α × List Char)} :
    ∀ (fuel : Nat) (s : List Char) (x : α), x ∈ finditerAux m fuel s →
      ∃ s1 r, m s1 = some (x, r) := by
  intro fuel
  induction fuel with
  | zero =>
    intro s x h
    simp [finditerAux] at h
  | succ n ih =>
    intro s x h
    rw [finditerAux_succ] at h
    cases hm : m s with
    | some ar =>
      rw [hm] at h
      rcases List.mem_cons.mp h with rfl | h'
      · exact ⟨s, ar.2, by rw [hm]⟩
      · exact ih ar.2 x h'
    | none =>
      rw [hm] at h
      cases s with
      | nil => simp at h
      | cons c tail => exact ih tail x h

theorem mem_finditer {m : List Char → Option (α × List Char)} {s : List Char}
    {x : α} (h : x ∈ finditer m s) : ∃ s1 r, m s1 = some (x, r) :=
  mem_finditerAux _ _ _ h

theorem warnCandidates_isSome (t : List Char) :
    ∀ ow ∈ warnCandidates t, ow.isSome = true := by
  intro ow how
  rw [warnCandidates] at how
  simp only [List.mem_append] at how
  rcases how with ((h | h) | h) | h
  · rw [rule1] at h
    obtain ⟨caps, hc, rfl⟩ := List.mem_map.mp h
    obtain ⟨s1, r, hm⟩ := mem_finditer hc
    exact matchP1_sound hm
  · rw [rule2] at h
    obtain ⟨caps, hc, rfl⟩ := List.mem_map.mp h
    obtain ⟨s1, r, hm⟩ := mem_finditer hc
    exact matchP2_sound hm
  · rw [rule3] at h
    obtain ⟨caps, hc, rfl⟩ := List.mem_map.mp h
    obtain ⟨s1, r, hm⟩ := mem_finditer hc
    exact matchP3_sound hm
  · rw [rule4] at h
    obtain ⟨caps, _, rfl⟩ := List.mem_map.mp h
    rfl

theorem warningsOf_isSome (t : List Char) : ∃ ws, warningsOf t = some ws := by
  rw [warningsOf_eq_dedup]
  obtain ⟨cs, hcs⟩ := mapMOpt_isSome (f := @id (Option Warning)) (warnCandidates t)
    (by
      intro a ha
      simpa using warnCandidates_isSome t a ha)
  exact ⟨dedupFirst cs, by simp [candidatesOf, hcs]⟩

/-- The error list is always computed and is the in-order image of the
retained chunks. -/
theorem errorsOf_eq (t : List Char) :
    errorsOf t = some ((retainedChunks t).map
      (fun c => ⟨pyStrip (c.takeWhile (· ≠ '\n')), findLNumSpec c⟩)) :=
  mapMOpt_eq_map _ (fun c _ => mkError_eq c)

/-- The parsing phase always yields a report built by `mkReport` from the
computed warnings and the per-chunk error records. -/
theorem parseLog_spec (t : List Char) :
    ∃ ws, warningsOf t = some ws ∧
      parseLog t = some (mkReport ws ((retainedChunks t).map
        (fun c => ⟨pyStrip (c.takeWhile (· ≠ '\n')), findLNumSpec c⟩))) := by
  obtain ⟨ws, hws⟩ := warningsOf_isSome t
  exact ⟨ws, hws, by simp [parseLog, hws, errorsOf_eq t]⟩

theorem ne_of_fields_ne {a b : Warning} (hne : a ≠ b) :
    ¬(a.message = b.message ∧ a.lines = b.lines) := by
  intro hconj
  obtain ⟨h1, h2⟩ := hconj
  apply hne
  cases a
  cases b
  simp only at h1 h2
  simp [h1, h2]

/-! ### The claims -/

def logScenarioA : List Char :=
  "Overfull \\hbox (12.34pt too wide) in paragraph at lines 15--16\n".toList

/-- C1: the spec (and the function's own docstring) say this box-overflow
notice yields one warning with message `Overfull \hbox (12.34pt too wide)`
and lines (15,16); the code's regex `[^(]*` cannot cross the `(` of the size
clause, so the code in fact emits no warning at all: the whole report is
empty and successful.  This theorem records the code's actual behaviour at
the failing input. -/
theorem C1_box_overflow_code_behavior :
    parseLog logScenarioA =
      some ⟨[], [], "0 warnings, 0 errors found".toList, true⟩ := by
  decide

def logScenarioD : List Char :=
  "LaTeX Warning: X on line 5\nLaTeX Warning: X on line 5\n".toList

/-- C2 counterexample: on the log containing `LaTeX Warning: X on line 5`
twice, the warnings list is not the single record
`{message = LaTeX Warning: X, line = 5}` the claim demands. -/
theorem C2_counterexample :
    ¬ ((parseLog logScenarioD).map Report.warnings =
        some [⟨"LaTeX Warning: X".toList, .single 5⟩]) := by
  decide

/-- C2 amended: on that log the code produces exactly two warning records:
the generic-with-line rule's greedy `[^.]*` spans the newline, giving message
`LaTeX Warning: X on line 5\nLaTeX Warning: X` with line 5, and the fallback
rule adds the entire matched text with no line. -/
theorem C2_duplicate_notice_amended :
    parseLog logScenarioD =
      some ⟨[⟨"LaTeX Warning: X on line 5\nLaTeX Warning: X".toList, .single 5⟩,
             ⟨"LaTeX Warning: X on line 5\nLaTeX Warning: X on line 5\n".toList, .noRef⟩],
            [], "2 warnings, 0 errors found".toList, true⟩ := by
  decide

def logMidBang : List Char := "Hello! world\n".toList

/-- C3 counterexample: in `Hello! world` no line begins with `!`, yet the
chunker splits at the mid-line `!` and the report carries one error and
`success = false`. -/
theorem C3_counterexample :
    noLineStartsWithBang logMidBang = true ∧
      (parseLog logMidBang).map Report.errors ≠ some [] ∧
      (parseLog logMidBang).map Report.success = some false := by
  refine ⟨by decide, by decide, by decide⟩

/-- C3 amended: for every log text in which the character `!` does not occur
at all (rather than merely never line-initially), the errors list is empty
and success is true, regardless of warning content. -/
theorem C3_no_bang_amended :
    ∀ (t : List Char) (r : Report), parseLog t = some r → t.count '!' = 0 →
      r.errors = [] ∧ r.success = true := by
  intro t r hp hcnt
  obtain ⟨ws, hws, hp2⟩ := parseLog_spec t
  rw [hp] at hp2
  injection hp2 with hp2
  subst hp2
  have hlen : (retainedChunks t).length = 0 := by rw [retainedChunks_length, hcnt]
  have hnil : retainedChunks t = [] := List.length_eq_zero.mp hlen
  rw [mkReport, hnil]
  simp

/-- C3 amended, witness at a `!`-free log text. -/
theorem C3_no_bang_witness :
    (⟨[], [], "0 warnings, 0 errors found".toList, true⟩ : Report).errors = [] ∧
      (⟨[], [], "0 warnings, 0 errors found".toList, true⟩ : Report).success = true :=
  C3_no_bang_amended "Hello world\n".toList _ (by decide) (by decide)

/-- C4: every retained error chunk yields a record whose message is the
chunk's first line stripped of surrounding whitespace and whose line field is
exactly the spec-side first `l.N` marker value (no line when no marker). -/
theorem C4_error_record_fields :
    ∀ (t c : List Char), c ∈ retainedChunks t →
      ∃ rec, mkError c = some rec ∧
        rec.message = pyStrip (c.takeWhile (· ≠ '\n')) ∧
        rec.line = findLNumSpec c :=
  fun _ c _ => ⟨_, mkError_eq c, rfl, rfl⟩

def logScenarioB : List Char := "! Undefined control sequence.\nl.20 \\foo\n".toList

/-- C4 witness: the single chunk of scenario B. -/
theorem C4_error_record_fields_witness :
    logScenarioB ∈ retainedChunks logScenarioB ∧
      ∃ rec, mkError logScenarioB = some rec ∧
        rec.message = pyStrip (logScenarioB.takeWhile (· ≠ '\n')) ∧
        rec.line = findLNumSpec logScenarioB :=
  ⟨by decide, C4_error_record_fields logScenarioB logScenarioB (by decide)⟩

/-- C5: the final warnings list is the candidate sequence with every record
whose `(message, lines)` pair was already seen removed, first occurrence
kept in place; hence no two retained records agree on both message and
lines. -/
theorem C5_warning_dedup :
    ∀ (t : List Char) (r : Report) (cs : List Warning),
      parseLog t = some r → candidatesOf t = some cs →
      r.warnings = dedupFirst cs ∧
        r.warnings.Pairwise (fun a b => ¬(a.message = b.message ∧ a.lines = b.lines)) := by
  intro t r cs hp hc
  obtain ⟨ws, hws, hp2⟩ := parseLog_spec t
  rw [hp] at hp2
  injection hp2 with hp2
  subst hp2
  have hd := warningsOf_eq_dedup t
  rw [hws, hc] at hd
  injection hd with hd
  have hwarn : (mkReport ws ((retainedChunks t).map
      (fun c => ⟨pyStrip (c.takeWhile (· ≠ '\n')), findLNumSpec c⟩))).warnings = ws := rfl
  rw [hwarn, hd]
  refine ⟨rfl, ?_⟩
  exact (List.Pairwise.imp (fun hab => ne_of_fields_ne hab)) (dedupFirst_nodup cs)

def logC5 : List Char := "LaTeX Warning: X on line 5\n".toList

def repC5 : Report :=
  mkReport [⟨"LaTeX Warning: X".toList, .single 5⟩,
            ⟨"LaTeX Warning: X on line 5\n".toList, .noRef⟩] []

def candsC5 : List Warning :=
  [⟨"LaTeX Warning: X".toList, .single 5⟩,
   ⟨"LaTeX Warning: X on line 5\n".toList, .noRef⟩]

/-- C5 witness: a log with one line-scoped notice, captured by the generic
rule and by the fallback rule. -/
theorem C5_warning_dedup_witness :
    repC5.warnings = dedupFirst candsC5 ∧
      repC5.warnings.Pairwise (fun a b => ¬(a.message = b.message ∧ a.lines = b.lines)) :=
  C5_warning_dedup logC5 repC5 candsC5 (by decide) (by decide)

/-- C6: errors are never deduplicated: the report carries exactly one record
per retained chunk, in chunk order, each record being the chunk's own
`mkError` output even when it equals an earlier one. -/
theorem C6_errors_no_dedup :
    ∀ (t : List Char) (r : Report), parseLog t = some r →
      r.errors.length = (retainedChunks t).length ∧
      ∀ (i : Nat) (h1 : i < (retainedChunks t).length) (h2 : i < r.errors.length),
        mkError ((retainedChunks t).get ⟨i, h1⟩) = some (r.errors.get ⟨i, h2⟩) := by
  intro t r hp
  obtain ⟨ws, hws, hp2⟩ := parseLog_spec t
  rw [hp] at hp2
  injection hp2 with hp2
  subst hp2
  constructor
  · simp [mkReport]
  · intro i h1 h2
    have hes : errorsOf t = some ((mkReport ws ((retainedChunks t).map
        (fun c => ⟨pyStrip (c.takeWhile (· ≠ '\n')), findLNumSpec c⟩))).errors) :=
      errorsOf_eq t
    exact mapMOpt_get (retainedChunks t) _ hes i h1 h2

def logDup : List Char := "! Oops.\n! Oops.\n".toList

/-- C6 witness: two identical error blocks give two records. -/
theorem C6_errors_no_dedup_witness :
    (mkReport [] [⟨"! Oops.".toList, none⟩, ⟨"! Oops.".toList, none⟩]).errors.length
      = (retainedChunks logDup).length :=
  (C6_errors_no_dedup logDup
    (mkReport [] [⟨"! Oops.".toList, none⟩, ⟨"! Oops.".toList, none⟩]) (by decide)).1

/-- C7: the assembled report's success bit is set exactly when the error list
is empty, its summary is the two-count sentence, and the empty log text
yields the empty successful report. -/
theorem C7_report_assembly :
    (∀ (ws : List Warning) (es : List ErrRecord),
        ((mkReport ws es).success = true ↔ es = []) ∧
        (mkReport ws es).summary = natStr ws.length ++ " warnings, ".toList
          ++ natStr es.length ++ " errors found".toList) ∧
      parseLog [] = some ⟨[], [], "0 warnings, 0 errors found".toList, true⟩ := by
  constructor
  · intro ws es
    refine ⟨?_, rfl⟩
    show (es.length == 0) = true ↔ es = []
    rw [beq_iff_eq, List.length_eq_zero]
  · decide

/-- C8: a missing document or one whose resolved path does not end in `.tex`
makes validate return an error value with a nonempty message, without ever
invoking the typesetting engine or the parsing phase. -/
theorem C8_precondition_short_circuit :
    ∀ (e : Env) (p : List Char),
      e.fileExists = false ∨ (".tex".toList.isSuffixOf e.resolvedPath) = false →
      (validateTex e p).1 = false ∧
        ∃ msg, (validateTex e p).2 = VResult.err msg ∧ msg ≠ [] := by
  intro e p h
  by_cases hf : e.fileExists = false
  · refine ⟨by simp [validateTex, hf], ⟨"File ".toList ++ p ++ " does not exist".toList,
      by simp [validateTex, hf], by simp⟩⟩
  · have hsuf : (".tex".toList.isSuffixOf e.resolvedPath) = false := by
      rcases h with h | h
      · exact absurd h hf
      · exact h
    refine ⟨?_, ⟨"File ".toList ++ p ++ " is not a LaTeX file".toList, ?_, by simp⟩⟩
    · rw [validateTex, if_neg hf, if_pos hsuf]
    · rw [validateTex, if_neg hf, if_pos hsuf]

def envC8 : Env := ⟨false, "cv.tex".toList, false, [], []⟩

/-- C8 witness: a nonexistent document. -/
theorem C8_precondition_short_circuit_witness :
    (validateTex envC8 "cv.tex".toList).1 = false ∧
      ∃ msg, (validateTex envC8 "cv.tex".toList).2 = VResult.err msg ∧ msg ≠ [] :=
  C8_precondition_short_circuit envC8 "cv.tex".toList (Or.inl (by decide))

/-- C9: the parsing phase is total: for every log text every rule and the
chunker degrade to "no match" rather than raising, so a report is always
produced. -/
theorem C9_parsing_total : ∀ t : List Char, ∃ r, parseLog t = some r := by
  intro t
  obtain ⟨ws, _, hp⟩ := parseLog_spec t
  exact ⟨_, hp⟩

/-- C10: the number of error records equals the number of `!` characters
anywhere in the log text: each `!` starts exactly one retained chunk. -/
theorem C10_error_count :
    ∀ (t : List Char) (r : Report), parseLog t = some r →
      r.errors.length = t.count '!' := by
  intro t r hp
  obtain ⟨ws, hws, hp2⟩ := parseLog_spec t
  rw [hp] at hp2
  injection hp2 with hp2
  subst hp2
  show ((retainedChunks t).map _).length = t.count '!'
  rw [List.length_map, retainedChunks_length]

def logC10 : List Char := "a!b!c".toList

/-- C10 witness: two mid-line markers give two error records. -/
theorem C10_error_count_witness :
    (mkReport [] [⟨"!b".toList, none⟩, ⟨"!c".toList, none⟩]).errors.length
      = logC10.count '!' :=
  C10_error_count logC10 (mkReport [] [⟨"!b".toList, none⟩, ⟨"!c".toList, none⟩])
    (by decide)

end McpTex
